import Mathlib

/-!
Verification of the day-08 minimum-spanning-forest construction
(`advent2025-lib/src/day08.rs`): integer point distances, the sorted
edge sequence, and the incremental forest builder with its two
stopping policies.

The Rust code is shallowly embedded: `usize` values become `Nat`
(the puzzle arithmetic never reaches the `usize` wrap-around range),
`Vec`/slices become `List`, the recursive `JunctionBoxTree` struct
becomes the nested inductive `JBTree`, and fallible parsing returns an
explicit outcome type.  The one genuine source of nondeterminism — the
iteration order of the `HashMap` holding the pair→distance entries —
is exposed as a parameter `σ` which theorems constrain to be a
permutation of the map's contents.
-/

/-- Mirrors `struct JunctionBox([usize; 3])`: three non-negative integer
coordinates, compared by value. -/
structure JunctionBox where
  x : Nat
  y : Nat
  z : Nat
deriving DecidableEq

/-- Mirrors `usize::abs_diff`. -/
def absDiff (a b : Nat) : Nat :=
  if a < b then b - a else a - b

/-- The largest `k ≤ m` with `k * k ≤ n` (`0` when none): a structurally
recursive integer floor square root search, proven equal to `Nat.sqrt`
below. -/
def isqrtGo (n : Nat) : Nat → Nat
  | 0 => 0
  | k + 1 => if (k + 1) * (k + 1) ≤ n then k + 1 else isqrtGo n k

/-- Mirrors `usize::isqrt`: the integer floor square root. -/
def isqrt (n : Nat) : Nat := isqrtGo n n

/-- The `usize` modulus of the 64-bit target. -/
def U64 : Nat := 2 ^ 64

/-- Mirrors release-mode `usize::pow(2)`: the square wraps modulo `2^64`. -/
def sqWrap (n : Nat) : Nat := n ^ 2 % U64

/-- Mirrors `JunctionBox::idistance`: the integer (floor) square root of the
sum over the three axes of the squared coordinate differences, in integer
arithmetic (`abs_diff`, `pow(2)`, `sum::<usize>()`, `isqrt`).  The squaring
and each step of the summation are `usize` operations, which in a release
build wrap modulo `2^64` (a debug build would panic on the same overflow);
`abs_diff` itself cannot overflow. -/
def idistance (a b : JunctionBox) : Nat :=
  isqrt (((sqWrap (absDiff a.x b.x) + sqWrap (absDiff a.y b.y)) % U64 +
    sqWrap (absDiff a.z b.z)) % U64)

/-- Lexicographic order on the coordinate triple; mirrors the derived
`PartialOrd`/`Ord` comparison `first.0 < second.0` on `[usize; 3]`. -/
def lexLt (a b : JunctionBox) : Bool :=
  a.x < b.x || (a.x = b.x && (a.y < b.y || (a.y = b.y && a.z < b.z)))

/-- Mirrors the canonicalisation in `distance_matrix`: the pair is ordered so
that the lexicographically smaller point comes first. -/
def canonPair (a b : JunctionBox) : JunctionBox × JunctionBox :=
  if lexLt a b then (a, b) else (b, a)

/-- Mirrors the `flat_map`/`filter_map` building the `HashMap` entries in
`distance_matrix`: for every ordered pair of list positions whose values
differ, one entry mapping the canonical pair to its distance.  Pairs whose
values are equal (`first == second`) are filtered out. -/
def pairsRaw (boxes : List JunctionBox) : List ((JunctionBox × JunctionBox) × Nat) :=
  boxes.flatMap fun first => boxes.filterMap fun second =>
    if first = second then none
    else some (canonPair first second, idistance first second)

/-- The contents of the `HashMap` built by `collect()`: one entry per distinct
key, skipping entries whose key was already seen.  Duplicate keys always carry
the same distance value here, so keeping the first occurrence of each key
reproduces the map's contents. -/
def dedupKeysGo (seen : List (JunctionBox × JunctionBox)) :
    List ((JunctionBox × JunctionBox) × Nat) → List ((JunctionBox × JunctionBox) × Nat)
  | [] => []
  | (k, v) :: rest =>
      if k ∈ seen then dedupKeysGo seen rest
      else (k, v) :: dedupKeysGo (k :: seen) rest

/-- One entry of the pair→distance `HashMap` per distinct key. -/
def dedupKeys (l : List ((JunctionBox × JunctionBox) × Nat)) :
    List ((JunctionBox × JunctionBox) × Nat) :=
  dedupKeysGo [] l

/-- The pair→distance mapping of `distance_matrix` as a list of entries (in
one canonical enumeration order; the `HashMap` iterates them in an arbitrary
order, which theorems model as an arbitrary permutation of this list). -/
def mapContents (boxes : List JunctionBox) : List ((JunctionBox × JunctionBox) × Nat) :=
  dedupKeys (pairsRaw boxes)

/-- An edge as carried by `pairs_sorted_by_distance`: distance plus pair. -/
abbrev EdgeT : Type := Nat × JunctionBox × JunctionBox

/-- The sort comparison of `sort_by_key(|(distance, _)| *distance)`. -/
def edgeLE (a b : EdgeT) : Prop := a.1 ≤ b.1

instance : DecidableRel edgeLE := fun a b => Nat.decLe a.1 b.1

instance : IsTotal EdgeT edgeLE := ⟨fun a b => Nat.le_total a.1 b.1⟩

instance : IsTrans EdgeT edgeLE := ⟨fun _ _ _ h1 h2 => Nat.le_trans h1 h2⟩

/-- Mirrors `pairs_sorted_by_distance`: the map entries (in iteration order
`σ`) rearranged to `(distance, pair)` and stably sorted ascending by
distance, as Rust's stable `sort_by_key` does. -/
def sortedEdges (σ : List ((JunctionBox × JunctionBox) × Nat)) : List EdgeT :=
  (σ.map fun kv => (kv.2, kv.1.1, kv.1.2)).insertionSort edgeLE

/-- Mirrors `struct JunctionBoxTree { root, nodes }`. -/
inductive JBTree where
  | node (root : JunctionBox) (nodes : List JBTree)

mutual
/-- Mirrors `JunctionBoxTree::len`: sum of the children's sizes plus one. -/
def JBTree.size : JBTree → Nat
  | .node _ ns => sizeL ns + 1
/-- Sum of the sizes of a list of trees. -/
def sizeL : List JBTree → Nat
  | [] => 0
  | t :: ts => JBTree.size t + sizeL ts
end

mutual
/-- All points of a tree, root first. -/
def JBTree.points : JBTree → List JunctionBox
  | .node r ns => r :: pointsL ns
/-- All points of a list of trees, in order. -/
def pointsL : List JBTree → List JunctionBox
  | [] => []
  | t :: ts => JBTree.points t ++ pointsL ts
end

mutual
/-- Mirrors `JunctionBoxTree::contains`: the root equals the point or some
child tree contains it. -/
def JBTree.contains : JBTree → JunctionBox → Bool
  | .node r ns, p => (r = p) || containsL ns p
/-- Whether any tree of the list contains the point. -/
def containsL : List JBTree → JunctionBox → Bool
  | [], _ => false
  | t :: ts, p => t.contains p || containsL ts p
end

/-- Mirrors `first_tree.nodes.push(...)`: append a child tree. -/
def pushChild (c : JBTree) : JBTree → JBTree
  | .node r ns => .node r (ns ++ [c])

/-- Mirrors `trees.iter().position(|tree| tree.contains(p))`. -/
def firstIdx (p : JunctionBox) : List JBTree → Option Nat
  | [] => none
  | t :: ts => if t.contains p then some 0 else (firstIdx p ts).map (· + 1)

/-- Index access into the tree list (`trees[j]`). -/
def getIdx : List JBTree → Nat → Option JBTree
  | [], _ => none
  | t :: _, 0 => some t
  | _ :: ts, n + 1 => getIdx ts n

/-- Mirrors `Vec::remove`: drop the element at the index. -/
def removeIdx : List JBTree → Nat → List JBTree
  | [], _ => []
  | _ :: ts, 0 => ts
  | t :: ts, n + 1 => t :: removeIdx ts n

/-- Mirrors `trees.iter_mut().find(|tree| tree.contains(p))` followed by
pushing `c` onto that tree's children: the first tree containing `p`
receives the new child; if none does (unreachable in program states, where
the Rust code would `unwrap`), the list is unchanged. -/
def graftFirst (p : JunctionBox) (c : JBTree) : List JBTree → List JBTree
  | [] => []
  | t :: ts => if t.contains p then pushChild c t :: ts else t :: graftFirst p c ts

/-- One iteration of the forest-building loop body of `distance_matrix`,
without the stopping checks: the four connection cases on the edge `(p, q)`.
-/
def stepEdge (trees : List JBTree) (p q : JunctionBox) : List JBTree :=
  match firstIdx p trees, firstIdx q trees with
  | some i, some j =>
      if i = j then trees
      else
        match getIdx trees j with
        | some second => graftFirst p second (removeIdx trees j)
        | none => trees
  | some _, none => graftFirst p (.node q []) trees
  | none, some _ => graftFirst q (.node p []) trees
  | none, none => trees ++ [.node p [.node q []]]

/-- Whether the edge's endpoints are already in the same tree (the no-op
merge case, which in the Rust loop hits `continue` and skips the stopping
checks). -/
def sameTreeIdx (trees : List JBTree) (p q : JunctionBox) : Bool :=
  match firstIdx p trees, firstIdx q trees with
  | some i, some j => i = j
  | _, _ => false

/-- Mirrors `trees.first().map(|t| t.len()).unwrap_or_default()`. -/
def headSize : List JBTree → Nat
  | [] => 0
  | t :: _ => t.size

/-- The bounded stopping test `count_connection_pairs >= connection_pairs_max`
guarded by `if let Some(connection_pairs_max) = connection_pairs_max`. -/
def stopMax : Option Nat → Nat → Bool
  | some m, count => m ≤ count
  | none, _ => false

/-- The main loop of `distance_matrix` over the sorted edges.  A same-tree
no-op merge increments the count and `continue`s (skipping both stopping
checks); every other case updates the forest via `stepEdge`, increments the
count, and then evaluates the bounded check followed by the all-connected
check (which records the completing edge in `last`). -/
def buildLoop (n : Nat) (maxPairs : Option Nat) :
    List EdgeT → List JBTree → Nat → Option (JunctionBox × JunctionBox) →
    List JBTree × Option (JunctionBox × JunctionBox)
  | [], trees, _, last => (trees, last)
  | (_, p, q) :: rest, trees, count, last =>
      if sameTreeIdx trees p q then
        buildLoop n maxPairs rest trees (count + 1) last
      else
        let trees' := stepEdge trees p q
        if stopMax maxPairs (count + 1) then (trees', last)
        else if n ≤ headSize trees' then (trees', some (p, q))
        else buildLoop n maxPairs rest trees' (count + 1) last

/-- The final sort comparison: `sort_by_key(|t| usize::MAX - t.len())` sorts
ascending by `usize::MAX - len`, i.e. descending by size (sizes never exceed
`usize::MAX`). -/
def treeGE (a b : JBTree) : Prop := b.size ≤ a.size

instance : DecidableRel treeGE := fun a b => Nat.decLe b.size a.size

instance : IsTotal JBTree treeGE := ⟨fun a b => (Nat.le_total b.size a.size)⟩

instance : IsTrans JBTree treeGE := ⟨fun _ _ _ h1 h2 => Nat.le_trans h2 h1⟩

/-- Mirrors the final `trees.sort_by_key(|t| usize::MAX - t.len())`: stable
sort by descending size. -/
def sortBySizeDesc (trees : List JBTree) : List JBTree :=
  trees.insertionSort treeGE

/-- Mirrors `distance_matrix`, with the `HashMap` iteration order exposed as
the entry list `σ`: sort the entries by distance, run the building loop from
the empty forest, and sort the resulting trees by descending size. -/
def distance_matrix (boxes : List JunctionBox)
    (σ : List ((JunctionBox × JunctionBox) × Nat)) (maxPairs : Option Nat) :
    List JBTree × Option (JunctionBox × JunctionBox) :=
  let r := buildLoop boxes.length maxPairs (sortedEdges σ) [] 0 none
  (sortBySizeDesc r.1, r.2)

/-- Mirrors `distance_matrix_tree`. -/
def distance_matrix_tree (boxes : List JunctionBox)
    (σ : List ((JunctionBox × JunctionBox) × Nat)) (m : Nat) : List JBTree :=
  (distance_matrix boxes σ (some m)).1

/-- Mirrors `distance_matrix_last_connection`: asserts exactly one tree
remains and unwraps the recorded pair; `none` models the assertion or unwrap
failing. -/
def distance_matrix_last_connection (boxes : List JunctionBox)
    (σ : List ((JunctionBox × JunctionBox) × Nat)) :
    Option (JBTree × (JunctionBox × JunctionBox)) :=
  match distance_matrix boxes σ none with
  | ([t], some pr) => some (t, pr)
  | _ => none

/-- The caller-side result extraction of `part1`:
`trees.iter().take(3).map(|t| t.len()).product()`. -/
def takeThreeProduct (trees : List JBTree) : Nat :=
  ((trees.take 3).map JBTree.size).prod

/-! ### Parsing (`JunctionBox::from_str`) -/

/-- Mirrors `str::split(',')`: split at every comma; adjacent commas and
leading/trailing commas yield empty fields, and the empty string yields one
empty field. -/
def splitComma : List Char → List (List Char)
  | [] => [[]]
  | c :: rest =>
      if c = ',' then [] :: splitComma rest
      else
        match splitComma rest with
        | s :: ss => (c :: s) :: ss
        | [] => [[c]]

/-- Accumulate decimal digits; any non-digit character fails. -/
def parseDigitsGo (acc : Nat) : List Char → Option Nat
  | [] => some acc
  | c :: rest => if c.isDigit then parseDigitsGo (acc * 10 + (c.toNat - 48)) rest else none

/-- Mirrors `str::parse::<usize>()`: an optional leading `+`, then one or
more decimal digits, rejecting the empty string, any other character, and
values that overflow a 64-bit `usize`. -/
def parseUsize (s : List Char) : Option Nat :=
  let body :=
    match s with
    | '+' :: rest => rest
    | _ => s
  match body with
  | [] => none
  | _ =>
      match parseDigitsGo 0 body with
      | some n => if n < 2 ^ 64 then some n else none
      | none => none

/-- The observable outcome of `JunctionBox::from_str` on one line: a parsed
box, an `Err` return, or a panic (out-of-bounds index). -/
inductive ParseOutcome where
  | ok (b : JunctionBox)
  | err
  | panicked
deriving DecidableEq

/-- Mirrors `JunctionBox::from_str`: split the line at commas, parse every
field as a `usize` (any failure propagates as `Err` via `?`), then index
elements 0, 1 and 2 of the collected vector — which panics when fewer than
three fields are present, and silently ignores fields beyond the third. -/
def junctionBoxFromStr (s : List Char) : ParseOutcome :=
  match (splitComma s).mapM parseUsize with
  | none => .err
  | some coordinates =>
      match coordinates[0]?, coordinates[1]?, coordinates[2]? with
      | some a, some b, some c => .ok ⟨a, b, c⟩
      | _, _, _ => .panicked

/-! ### Concrete inputs shared by several claim settlements -/

/-- Four collinear points with pairwise distinct distances
(1, 2, 3, 7, 9, 10), so the sorted edge order is independent of the map
iteration order. -/
def fourBoxes : List JunctionBox := [⟨0, 0, 0⟩, ⟨1, 0, 0⟩, ⟨3, 0, 0⟩, ⟨10, 0, 0⟩]

/-- A fully linear chain of 3 points with consecutive gaps 1, 2. -/
def chain3 : List JunctionBox := [⟨0, 0, 0⟩, ⟨1, 0, 0⟩, ⟨3, 0, 0⟩]

/-- A fully linear chain of 5 points with consecutive gaps 1, 2, 3, 4. -/
def chain5 : List JunctionBox := [⟨0, 0, 0⟩, ⟨1, 0, 0⟩, ⟨3, 0, 0⟩, ⟨6, 0, 0⟩, ⟨10, 0, 0⟩]

/-! ### Claim theorems settled by concrete evaluation -/

/-- Claim C9 (code bug evaluated): on the line `1,2` — fewer than three
comma-separated fields, each parsing fine as an integer — `from_str` panics
on the out-of-bounds index `coordinates[2]` instead of returning an error
result; a well-formed line parses, a non-numeric field is an error, and a
line with four fields silently succeeds on its first three instead of
erroring. -/
theorem c9_short_line_panics :
    junctionBoxFromStr ("1,2".toList) = ParseOutcome.panicked ∧
    junctionBoxFromStr ("".toList) = ParseOutcome.err ∧
    junctionBoxFromStr ("1,2,3".toList) = ParseOutcome.ok ⟨1, 2, 3⟩ ∧
    junctionBoxFromStr ("1,a,3".toList) = ParseOutcome.err ∧
    junctionBoxFromStr ("1,2,3,4".toList) = ParseOutcome.ok ⟨1, 2, 3⟩ := by
  decide

/-- Claim C2 (counterexample): on `fourBoxes` in bounded mode with maximum 3,
the accepted-connection count reaches 3 at the third sorted edge (a same-tree
no-op merge, whose `continue` skips the stopping checks), yet the fourth edge
is still processed: the final forest differs from the run truncated to the
first three edges, and contains the point `(10,0,0)` whose only edges come
after the count reached the maximum. -/
theorem c2_extra_edge_processed_cex :
    containsL (distance_matrix fourBoxes (mapContents fourBoxes) (some 3)).1 ⟨10, 0, 0⟩ = true ∧
    (buildLoop fourBoxes.length (some 3) (sortedEdges (mapContents fourBoxes)) [] 0 none).1.map
        JBTree.size ≠
      (buildLoop fourBoxes.length (some 3)
          ((sortedEdges (mapContents fourBoxes)).take 3) [] 0 none).1.map JBTree.size := by
  decide

/-- Claim C4 (counterexample): two points with identical coordinates are
filtered out of the pair enumeration by the `first == second` value check, so
the pair→distance mapping of the input consisting of two copies of `(0,0,0)`
is empty — it contains no zero-distance edge between the duplicates, nothing
is processed, and no merge ever happens (the final forest is empty). -/
theorem c4_duplicate_no_edge_cex :
    mapContents [⟨0, 0, 0⟩, ⟨0, 0, 0⟩] = [] ∧
    (distance_matrix [⟨0, 0, 0⟩, ⟨0, 0, 0⟩]
        (mapContents [⟨0, 0, 0⟩, ⟨0, 0, 0⟩]) none).1.length = 0 := by
  decide

/-- Claim C8 (counterexample): on the 3-point linear chain with gaps 1, 2 and
cap 2 = (number of points − 1), the builder does yield a single tree of size
3, but the caller-computed product of the three largest tree sizes is 3 — the
single size itself, not its cube 27.  Moreover on the 5-point chain with gaps
1, 2, 3, 4 and cap 4, the canonical map iteration order puts the tied edge
(0,0,0)–(3,0,0) before (3,0,0)–(6,0,0), the count is exhausted early and the
run ends with one tree of size 4, not a spanning tree of size 5. -/
theorem c8_product_not_cubed_cex :
    (distance_matrix_tree chain3 (mapContents chain3) 2).map JBTree.size = [3] ∧
    takeThreeProduct (distance_matrix_tree chain3 (mapContents chain3) 2) = 3 ∧
    takeThreeProduct (distance_matrix_tree chain3 (mapContents chain3) 2) ≠ 3 ^ 3 ∧
    (distance_matrix_tree chain5 (mapContents chain5) 4).map JBTree.size = [4] := by
  decide

/-- Claim C8 (amended): bounded mode with cap (number of points − 1) on the
3-point linear chain produces a single tree of size 3, and the caller-computed
product of the three largest tree sizes equals that size — trees beyond the
count are absent and contribute nothing to the product, as the general last
conjunct shows for any single-tree forest. -/
theorem c8_chain_amended :
    (distance_matrix_tree chain3 (mapContents chain3) 2).map JBTree.size = [3] ∧
    takeThreeProduct (distance_matrix_tree chain3 (mapContents chain3) 2) = 3 ∧
    ∀ t : JBTree, takeThreeProduct [t] = t.size := by
  refine ⟨by decide, by decide, fun t => ?_⟩
  simp [takeThreeProduct]

/-! ### Basic tree lemmas -/

mutual
theorem JBTree.size_eq_points_length : ∀ t : JBTree, t.size = t.points.length
  | .node r ns => by
    simp [JBTree.size, JBTree.points, sizeL_eq_pointsL_length ns, Nat.add_comm]
theorem sizeL_eq_pointsL_length : ∀ ts : List JBTree, sizeL ts = (pointsL ts).length
  | [] => rfl
  | t :: ts => by
    simp [sizeL, pointsL, JBTree.size_eq_points_length t, sizeL_eq_pointsL_length ts]
end

mutual
theorem JBTree.contains_iff : ∀ (t : JBTree) (p : JunctionBox),
    t.contains p = true ↔ p ∈ t.points
  | .node r ns, p => by
    simp only [JBTree.contains, JBTree.points, Bool.or_eq_true, decide_eq_true_eq,
      List.mem_cons, containsL_iff ns p]
    rw [eq_comm]
theorem containsL_iff : ∀ (ts : List JBTree) (p : JunctionBox),
    containsL ts p = true ↔ p ∈ pointsL ts
  | [], p => by simp [containsL, pointsL]
  | t :: ts, p => by
    simp [containsL, pointsL, JBTree.contains_iff t p, containsL_iff ts p]
end

theorem JBTree.size_pos : ∀ t : JBTree, 1 ≤ t.size
  | .node r ns => by simp [JBTree.size]

theorem JBTree.root_mem : ∀ t : JBTree, ∃ r, r ∈ t.points
  | .node r ns => ⟨r, by simp [JBTree.points]⟩

theorem pointsL_append : ∀ xs ys : List JBTree, pointsL (xs ++ ys) = pointsL xs ++ pointsL ys
  | [], ys => rfl
  | x :: xs, ys => by simp [pointsL, pointsL_append xs ys]

theorem mem_pointsL_iff {p : JunctionBox} : ∀ {ts : List JBTree},
    p ∈ pointsL ts ↔ ∃ t ∈ ts, p ∈ t.points
  | [] => by simp [pointsL]
  | t :: ts => by simp [pointsL, @mem_pointsL_iff p ts]

theorem pushChild_points (c t : JBTree) : (pushChild c t).points = t.points ++ c.points := by
  cases t with
  | node r ns => simp [pushChild, JBTree.points, pointsL_append, pointsL]

theorem containsL_append (xs ys : List JBTree) (p : JunctionBox) :
    containsL (xs ++ ys) p = (containsL xs p || containsL ys p) := by
  induction xs with
  | nil => simp [containsL]
  | cons x xs ih => simp [containsL, ih, Bool.or_assoc]

theorem pushChild_contains (c t : JBTree) (x : JunctionBox) :
    (pushChild c t).contains x = (t.contains x || c.contains x) := by
  cases t with
  | node r ns =>
    simp [pushChild, JBTree.contains, containsL_append, containsL, Bool.or_assoc]

/-! ### Lemmas about the positional helpers -/

theorem firstIdx_some_spec {p : JunctionBox} : ∀ {ts : List JBTree} {i : Nat},
    firstIdx p ts = some i → ∃ t, getIdx ts i = some t ∧ t.contains p = true := by
  intro ts
  induction ts with
  | nil => intro i h; simp [firstIdx] at h
  | cons t ts ih =>
    intro i h
    by_cases hc : t.contains p = true
    · simp [firstIdx, hc] at h
      exact ⟨t, by simp [← h, getIdx], hc⟩
    · simp [firstIdx, hc] at h
      obtain ⟨i', hi', rfl⟩ := h
      obtain ⟨u, hu, hcu⟩ := ih hi'
      exact ⟨u, by simp [getIdx, hu], hcu⟩

theorem firstIdx_none_iff {p : JunctionBox} : ∀ {ts : List JBTree},
    firstIdx p ts = none ↔ containsL ts p = false := by
  intro ts
  induction ts with
  | nil => simp [firstIdx, containsL]
  | cons t ts ih =>
    by_cases hc : t.contains p = true
    · simp [firstIdx, hc, containsL]
    · have hc' : t.contains p = false := by simpa using hc
      simp [firstIdx, hc', containsL, ih, Option.map_eq_none]

theorem firstIdx_some_containsL {p : JunctionBox} {ts : List JBTree} {i : Nat}
    (h : firstIdx p ts = some i) : containsL ts p = true := by
  rcases hc : containsL ts p with _ | _
  · rw [← firstIdx_none_iff] at hc
    rw [h] at hc
    cases hc
  · rfl

theorem getIdx_mem : ∀ {ts : List JBTree} {i : Nat} {t : JBTree},
    getIdx ts i = some t → t ∈ ts := by
  intro ts
  induction ts with
  | nil => intro i t h; simp [getIdx] at h
  | cons u ts ih =>
    intro i t h
    cases i with
    | zero => simp [getIdx] at h; simp [h]
    | succ n => exact List.mem_cons_of_mem u (ih h)

theorem pointsL_removeIdx : ∀ {ts : List JBTree} {j : Nat} {s : JBTree},
    getIdx ts j = some s →
    List.Perm (pointsL ts) (s.points ++ pointsL (removeIdx ts j)) := by
  intro ts
  induction ts with
  | nil => intro j s h; simp [getIdx] at h
  | cons u ts ih =>
    intro j s h
    cases j with
    | zero =>
      simp [getIdx] at h
      simp [removeIdx, pointsL, h]
    | succ n =>
      simp [getIdx] at h
      have hperm := ih h
      simp only [removeIdx, pointsL]
      have h1 := hperm.append_left u.points
      have h3 : List.Perm ((u.points ++ s.points) ++ pointsL (removeIdx ts n))
          ((s.points ++ u.points) ++ pointsL (removeIdx ts n)) :=
        (@List.perm_append_comm _ u.points s.points).append_right _
      rw [List.append_assoc, List.append_assoc] at h3
      exact h1.trans h3

theorem getIdx_mem_removeIdx : ∀ {ts : List JBTree} {i j : Nat} {t : JBTree},
    i ≠ j → getIdx ts i = some t → t ∈ removeIdx ts j := by
  intro ts
  induction ts with
  | nil => intro i j t _ h; simp [getIdx] at h
  | cons u ts ih =>
    intro i j t hij h
    cases i with
    | zero =>
      simp [getIdx] at h
      cases j with
      | zero => exact absurd rfl hij
      | succ m => simp [removeIdx, h]
    | succ n =>
      cases j with
      | zero => simp [removeIdx]; exact getIdx_mem h
      | succ m =>
        have : n ≠ m := by omega
        simp [removeIdx]
        right
        exact ih this h

theorem mem_removeIdx_or_getIdx : ∀ {ts : List JBTree} {t : JBTree},
    t ∈ ts → ∀ j : Nat, t ∈ removeIdx ts j ∨ getIdx ts j = some t := by
  intro ts
  induction ts with
  | nil => intro t h; simp at h
  | cons u ts ih =>
    intro t h j
    cases j with
    | zero =>
      rcases List.mem_cons.mp h with rfl | hmem
      · right; simp [getIdx]
      · left; simpa [removeIdx] using hmem
    | succ m =>
      rcases List.mem_cons.mp h with rfl | hmem
      · left; simp [removeIdx]
      · rcases ih hmem m with h1 | h2
        · left; simp [removeIdx, h1]
        · right; simpa [getIdx] using h2

/-! ### Grafting lemmas -/

theorem graftFirst_points_perm {p : JunctionBox} (c : JBTree) : ∀ {ts : List JBTree},
    containsL ts p = true →
    List.Perm (pointsL (graftFirst p c ts)) (pointsL ts ++ c.points) := by
  intro ts
  induction ts with
  | nil => intro h; simp [containsL] at h
  | cons t ts ih =>
    intro h
    by_cases hc : t.contains p = true
    · simp only [graftFirst, hc, if_pos, pointsL, pushChild_points]
      simp only [List.append_assoc]
      refine List.Perm.append_left _ ?_
      exact List.perm_append_comm
    · have hc' : t.contains p = false := by simpa using hc
      have hts : containsL ts p = true := by
        simpa [containsL, hc'] using h
      simp only [graftFirst, hc', Bool.false_eq_true, if_false, pointsL]
      have h1 := (ih hts).append_left t.points
      simpa [List.append_assoc] using h1

theorem graftFirst_mem_push {p : JunctionBox} (c : JBTree) : ∀ {ts : List JBTree},
    containsL ts p = true →
    ∃ t ∈ ts, t.contains p = true ∧ pushChild c t ∈ graftFirst p c ts := by
  intro ts
  induction ts with
  | nil => intro h; simp [containsL] at h
  | cons t ts ih =>
    intro h
    by_cases hc : t.contains p = true
    · exact ⟨t, List.mem_cons_self t ts, hc, by simp [graftFirst, hc]⟩
    · have hc' : t.contains p = false := by simpa using hc
      have hts : containsL ts p = true := by simpa [containsL, hc'] using h
      obtain ⟨u, hu, hcu, hmem⟩ := ih hts
      exact ⟨u, List.mem_cons_of_mem t hu, hcu, by simp [graftFirst, hc', hmem]⟩

theorem graftFirst_preserve {p : JunctionBox} (c : JBTree) : ∀ {ts : List JBTree} {t : JBTree},
    t ∈ ts → ∃ u ∈ graftFirst p c ts, ∀ x, t.contains x = true → u.contains x = true := by
  intro ts
  induction ts with
  | nil => intro t h; simp at h
  | cons v ts ih =>
    intro t h
    by_cases hc : v.contains p = true
    · rcases List.mem_cons.mp h with rfl | hmem
      · refine ⟨pushChild c t, by simp [graftFirst, hc], fun x hx => ?_⟩
        simp [pushChild_contains, hx]
      · exact ⟨t, by simp [graftFirst, hc, hmem], fun x hx => hx⟩
    · have hc' : v.contains p = false := by simpa using hc
      rcases List.mem_cons.mp h with rfl | hmem
      · exact ⟨t, by simp [graftFirst, hc'], fun x hx => hx⟩
      · obtain ⟨u, hu, hpres⟩ := ih hmem
        exact ⟨u, by simp [graftFirst, hc', hu], hpres⟩

/-! ### Step lemmas -/

/-- The points present after one loop body iteration: a permutation of the
old points plus whichever endpoints were previously absent. -/
theorem stepEdge_points_perm (ts : List JBTree) (p q : JunctionBox) :
    List.Perm (pointsL (stepEdge ts p q))
      (pointsL ts ++ (if containsL ts p = true then [] else [p]) ++
        (if containsL ts q = true then [] else [q])) := by
  unfold stepEdge
  rcases hp : firstIdx p ts with _ | i <;> rcases hq : firstIdx q ts with _ | j
  · -- neither endpoint present
    have hcp : containsL ts p = false := firstIdx_none_iff.mp hp
    have hcq : containsL ts q = false := firstIdx_none_iff.mp hq
    simp [hcp, hcq, pointsL_append, pointsL, JBTree.points, List.append_assoc]
  · -- q present, p absent
    have hcp : containsL ts p = false := firstIdx_none_iff.mp hp
    have hcq : containsL ts q = true := firstIdx_some_containsL hq
    have := graftFirst_points_perm (JBTree.node p []) hcq
    simp only [JBTree.points, pointsL] at this
    simpa [hcp, hcq] using this
  · -- p present, q absent
    have hcp : containsL ts p = true := firstIdx_some_containsL hp
    have hcq : containsL ts q = false := firstIdx_none_iff.mp hq
    have := graftFirst_points_perm (JBTree.node q []) hcp
    simp only [JBTree.points, pointsL] at this
    simpa [hcp, hcq] using this
  · -- both present
    have hcp : containsL ts p = true := firstIdx_some_containsL hp
    have hcq : containsL ts q = true := firstIdx_some_containsL hq
    by_cases hij : i = j
    · simp [hij, hcp, hcq]
    · simp only [hij, if_false, hcp, hcq, if_true, List.append_nil]
      obtain ⟨second, hsec, hcsec⟩ := firstIdx_some_spec hq
      simp only [hsec]
      obtain ⟨tp, htp, hctp⟩ := firstIdx_some_spec hp
      have htpmem : tp ∈ removeIdx ts j := getIdx_mem_removeIdx hij htp
      have hcrem : containsL (removeIdx ts j) p = true := by
        rw [containsL_iff, mem_pointsL_iff]
        exact ⟨tp, htpmem, (JBTree.contains_iff tp p).mp hctp⟩
      have h1 := graftFirst_points_perm second hcrem
      have h2 := pointsL_removeIdx hsec
      refine h1.trans ?_
      have h3 : List.Perm (pointsL (removeIdx ts j) ++ second.points)
          (second.points ++ pointsL (removeIdx ts j)) := List.perm_append_comm
      exact h3.trans h2.symm

/-- Both points lie in one common tree of the forest. -/
def coTree (ts : List JBTree) (a b : JunctionBox) : Prop :=
  ∃ t ∈ ts, t.contains a = true ∧ t.contains b = true

theorem not_mem_pointsL_of_containsL_false {ts : List JBTree} {r : JunctionBox}
    (hr : containsL ts r = false) : r ∉ pointsL ts := by
  intro hm
  rw [← containsL_iff] at hm
  rw [hm] at hr
  cases hr

theorem stepEdge_nodup {ts : List JBTree} {p q : JunctionBox} (hpq : p ≠ q)
    (h : (pointsL ts).Nodup) : (pointsL (stepEdge ts p q)).Nodup := by
  refine (stepEdge_points_perm ts p q).nodup_iff.mpr ?_
  rcases hcp : containsL ts p with _ | _ <;> rcases hcq : containsL ts q with _ | _
  · -- p absent, q absent
    have hp := not_mem_pointsL_of_containsL_false hcp
    have hq := not_mem_pointsL_of_containsL_false hcq
    simp only [Bool.false_eq_true, if_false, List.append_assoc, List.singleton_append]
    rw [List.nodup_append]
    refine ⟨h, by simp [hpq], ?_⟩
    intro x hx hx2
    rcases (by simpa using hx2 : x = p ∨ x = q) with rfl | rfl
    · exact hp hx
    · exact hq hx
  · -- p absent, q present
    have hp := not_mem_pointsL_of_containsL_false hcp
    simp only [Bool.false_eq_true, if_false, hcq, if_true, List.append_nil]
    rw [List.nodup_append]
    refine ⟨h, by simp, ?_⟩
    intro x hx hx2
    rcases (by simpa using hx2 : x = p) with rfl
    exact hp hx
  · -- p present, q absent
    have hq := not_mem_pointsL_of_containsL_false hcq
    simp only [Bool.false_eq_true, if_false, hcp, if_true, List.append_nil]
    rw [List.nodup_append]
    refine ⟨h, by simp, ?_⟩
    intro x hx hx2
    rcases (by simpa using hx2 : x = q) with rfl
    exact hq hx
  · -- both present
    simpa [hcp, hcq] using h

theorem stepEdge_mem_iff {ts : List JBTree} {p q x : JunctionBox} :
    x ∈ pointsL (stepEdge ts p q) ↔ x ∈ pointsL ts ∨ x = p ∨ x = q := by
  rw [(stepEdge_points_perm ts p q).mem_iff]
  rcases hcp : containsL ts p with _ | _ <;> rcases hcq : containsL ts q with _ | _ <;>
    simp only [Bool.false_eq_true, if_false, if_true, List.append_nil, List.mem_append,
      List.mem_singleton]
  · tauto
  · have : q ∈ pointsL ts := (containsL_iff ts q).mp hcq
    constructor
    · tauto
    · rintro (hx | rfl | rfl) <;> tauto
  · have : p ∈ pointsL ts := (containsL_iff ts p).mp hcp
    constructor
    · tauto
    · rintro (hx | rfl | rfl) <;> tauto
  · have hp : p ∈ pointsL ts := (containsL_iff ts p).mp hcp
    have hq : q ∈ pointsL ts := (containsL_iff ts q).mp hcq
    constructor
    · tauto
    · rintro (hx | rfl | rfl) <;> tauto

theorem getIdx_inj {ts : List JBTree} {j : Nat} {t u : JBTree}
    (h1 : getIdx ts j = some t) (h2 : getIdx ts j = some u) : t = u := by
  rw [h1] at h2
  exact Option.some_inj.mp h2

theorem sameTreeIdx_coTree {ts : List JBTree} {p q : JunctionBox}
    (h : sameTreeIdx ts p q = true) : coTree ts p q := by
  unfold sameTreeIdx at h
  rcases hp : firstIdx p ts with _ | i <;> rcases hq : firstIdx q ts with _ | j <;>
    rw [hp, hq] at h <;> try cases h
  obtain ⟨tp, htp, hctp⟩ := firstIdx_some_spec hp
  obtain ⟨tq, htq, hctq⟩ := firstIdx_some_spec hq
  have hij : i = j := by simpa using h
  subst hij
  have := getIdx_inj htp htq
  subst this
  exact ⟨tp, getIdx_mem htp, hctp, hctq⟩

theorem stepEdge_coTree_self (ts : List JBTree) (p q : JunctionBox) :
    coTree (stepEdge ts p q) p q := by
  unfold stepEdge
  rcases hp : firstIdx p ts with _ | i <;> rcases hq : firstIdx q ts with _ | j
  · -- brand-new two-node tree
    refine ⟨JBTree.node p [JBTree.node q []], by simp, by simp [JBTree.contains], ?_⟩
    simp [JBTree.contains, containsL]
  · -- q present, p grafted as leaf
    have hcq : containsL ts q = true := firstIdx_some_containsL hq
    obtain ⟨t, ht, hct, hmem⟩ := graftFirst_mem_push (JBTree.node p []) hcq
    refine ⟨pushChild (JBTree.node p []) t, hmem, ?_, ?_⟩
    · simp [pushChild_contains, JBTree.contains]
    · simp [pushChild_contains, hct]
  · -- p present, q grafted as leaf
    have hcp : containsL ts p = true := firstIdx_some_containsL hp
    obtain ⟨t, ht, hct, hmem⟩ := graftFirst_mem_push (JBTree.node q []) hcp
    refine ⟨pushChild (JBTree.node q []) t, hmem, ?_, ?_⟩
    · simp [pushChild_contains, hct]
    · simp [pushChild_contains, JBTree.contains]
  · -- both present
    have hcp : containsL ts p = true := firstIdx_some_containsL hp
    have hcq : containsL ts q = true := firstIdx_some_containsL hq
    by_cases hij : i = j
    · simp only [hij, if_pos]
      subst hij
      obtain ⟨tp, htp, hctp⟩ := firstIdx_some_spec hp
      obtain ⟨tq, htq, hctq⟩ := firstIdx_some_spec hq
      have := getIdx_inj htp htq
      subst this
      exact ⟨tp, getIdx_mem htp, hctp, hctq⟩
    · simp only [hij, if_false]
      obtain ⟨second, hsec, hcsec⟩ := firstIdx_some_spec hq
      simp only [hsec]
      obtain ⟨tp, htp, hctp⟩ := firstIdx_some_spec hp
      have htpmem : tp ∈ removeIdx ts j := getIdx_mem_removeIdx hij htp
      have hcrem : containsL (removeIdx ts j) p = true := by
        rw [containsL_iff, mem_pointsL_iff]
        exact ⟨tp, htpmem, (JBTree.contains_iff tp p).mp hctp⟩
      obtain ⟨t, ht, hct, hmem⟩ := graftFirst_mem_push second hcrem
      refine ⟨pushChild second t, hmem, ?_, ?_⟩
      · simp [pushChild_contains, hct]
      · simp [pushChild_contains, hcsec]

theorem stepEdge_coTree_mono {ts : List JBTree} {p q a b : JunctionBox}
    (h : coTree ts a b) : coTree (stepEdge ts p q) a b := by
  obtain ⟨t, ht, hca, hcb⟩ := h
  unfold stepEdge
  rcases hp : firstIdx p ts with _ | i <;> rcases hq : firstIdx q ts with _ | j
  · exact ⟨t, by simp [ht], hca, hcb⟩
  · obtain ⟨u, hu, hpres⟩ := graftFirst_preserve (JBTree.node p []) ht
    exact ⟨u, hu, hpres a hca, hpres b hcb⟩
  · obtain ⟨u, hu, hpres⟩ := graftFirst_preserve (JBTree.node q []) ht
    exact ⟨u, hu, hpres a hca, hpres b hcb⟩
  · by_cases hij : i = j
    · simp only [hij, if_pos]
      exact ⟨t, ht, hca, hcb⟩
    · simp only [hij, if_false]
      obtain ⟨second, hsec, hcsec⟩ := firstIdx_some_spec hq
      simp only [hsec]
      obtain ⟨tp, htp, hctp⟩ := firstIdx_some_spec hp
      have htpmem : tp ∈ removeIdx ts j := getIdx_mem_removeIdx hij htp
      have hcrem : containsL (removeIdx ts j) p = true := by
        rw [containsL_iff, mem_pointsL_iff]
        exact ⟨tp, htpmem, (JBTree.contains_iff tp p).mp hctp⟩
      rcases mem_removeIdx_or_getIdx ht j with hsurv | hremd
      · obtain ⟨u, hu, hpres⟩ := graftFirst_preserve second hsurv
        exact ⟨u, hu, hpres a hca, hpres b hcb⟩
      · have : t = second := getIdx_inj hremd hsec
        subst this
        obtain ⟨u, hu, hcu, hmem⟩ := graftFirst_mem_push t hcrem
        refine ⟨pushChild t u, hmem, ?_, ?_⟩
        · simp [pushChild_contains, hca]
        · simp [pushChild_contains, hcb]

/-! ### Edge list facts -/

theorem canonPair_cases (a b : JunctionBox) :
    canonPair a b = (a, b) ∨ canonPair a b = (b, a) := by
  unfold canonPair
  by_cases h : lexLt a b = true
  · simp [h]
  · simp [h]

theorem dedupKeysGo_subset : ∀ {l : List ((JunctionBox × JunctionBox) × Nat)}
    {seen : List (JunctionBox × JunctionBox)} {x}, x ∈ dedupKeysGo seen l → x ∈ l := by
  intro l
  induction l with
  | nil => intro seen x h; simp [dedupKeysGo] at h
  | cons kv rest ih =>
    intro seen x h
    obtain ⟨k, v⟩ := kv
    by_cases hk : k ∈ seen
    · simp only [dedupKeysGo, if_pos hk] at h
      exact List.mem_cons_of_mem _ (ih h)
    · simp only [dedupKeysGo, if_neg hk] at h
      rcases List.mem_cons.mp h with rfl | h'
      · exact List.mem_cons_self _ _
      · exact List.mem_cons_of_mem _ (ih h')

theorem pairsRaw_mem_spec {boxes : List JunctionBox} {x : (JunctionBox × JunctionBox) × Nat}
    (h : x ∈ pairsRaw boxes) :
    ∃ a b, a ∈ boxes ∧ b ∈ boxes ∧ a ≠ b ∧ x = (canonPair a b, idistance a b) := by
  unfold pairsRaw at h
  rw [List.mem_flatMap] at h
  obtain ⟨a, ha, hx⟩ := h
  rw [List.mem_filterMap] at hx
  obtain ⟨b, hb, hab⟩ := hx
  by_cases hne : a = b
  · simp [hne] at hab
  · simp only [if_neg hne] at hab
    exact ⟨a, b, ha, hb, hne, (Option.some_inj.mp hab).symm⟩

theorem mem_sortedEdges_iff {σ : List ((JunctionBox × JunctionBox) × Nat)} {e : EdgeT} :
    e ∈ sortedEdges σ ↔ e ∈ σ.map fun kv => (kv.2, kv.1.1, kv.1.2) :=
  (List.perm_insertionSort edgeLE _).mem_iff

theorem sortedEdges_endpoints (boxes : List JunctionBox)
    (σ : List ((JunctionBox × JunctionBox) × Nat))
    (hσ : List.Perm σ (mapContents boxes)) {e : EdgeT} (h : e ∈ sortedEdges σ) :
    e.2.1 ∈ boxes ∧ e.2.2 ∈ boxes ∧ e.2.1 ≠ e.2.2 := by
  rw [mem_sortedEdges_iff, List.mem_map] at h
  obtain ⟨kv, hkv, hmap⟩ := h
  have hkv2 : kv ∈ mapContents boxes := hσ.mem_iff.mp hkv
  have hkv3 : kv ∈ pairsRaw boxes := dedupKeysGo_subset hkv2
  obtain ⟨a, b, ha, hb, hne, rfl⟩ := pairsRaw_mem_spec hkv3
  have hpair : (e.2.1, e.2.2) = canonPair a b := by
    rw [← hmap]
  rcases canonPair_cases a b with hc | hc <;> rw [hc] at hpair <;>
    obtain ⟨h1, h2⟩ := Prod.mk.injEq .. ▸ hpair <;> cases hpair
  · exact ⟨ha, hb, hne⟩
  · exact ⟨hb, ha, fun hh => hne hh.symm⟩

/-! ### The builder state after a prefix of processed edges -/

/-- The forest state after folding the loop body over a list of edges,
starting from the empty forest. -/
def foldEdges (pre : List EdgeT) : List JBTree :=
  pre.foldl (fun acc e => stepEdge acc e.2.1 e.2.2) []

theorem foldEdges_append_one (pre : List EdgeT) (e : EdgeT) :
    foldEdges (pre ++ [e]) = stepEdge (foldEdges pre) e.2.1 e.2.2 := by
  simp [foldEdges, List.foldl_append]

theorem foldEdges_inv : ∀ pre : List EdgeT, (∀ e ∈ pre, e.2.1 ≠ e.2.2) →
    (pointsL (foldEdges pre)).Nodup ∧
    (∀ x, x ∈ pointsL (foldEdges pre) ↔ x ∈ pre.flatMap fun e => [e.2.1, e.2.2]) := by
  intro pre
  induction pre using List.reverseRecOn with
  | nil => intro _; simp [foldEdges, pointsL]
  | append_singleton pre e ih =>
    intro hvalid
    have hpre : ∀ e' ∈ pre, e'.2.1 ≠ e'.2.2 := fun e' he' => hvalid e' (by simp [he'])
    have he : e.2.1 ≠ e.2.2 := hvalid e (by simp)
    obtain ⟨hnd, hmem⟩ := ih hpre
    rw [foldEdges_append_one]
    refine ⟨stepEdge_nodup he hnd, ?_⟩
    intro x
    rw [stepEdge_mem_iff, hmem x]
    simp only [List.flatMap_append, List.mem_append, List.flatMap_cons, List.flatMap_nil,
      List.append_nil, List.mem_cons, List.mem_singleton]
    tauto

theorem nodup_pointsL_parts : ∀ {ts : List JBTree}, (pointsL ts).Nodup →
    (∀ t ∈ ts, t.points.Nodup) ∧
    List.Pairwise (fun t1 t2 => ∀ x, x ∈ t1.points → x ∉ t2.points) ts := by
  intro ts
  induction ts with
  | nil => intro _; simp
  | cons t ts ih =>
    intro h
    rw [pointsL, List.nodup_append] at h
    obtain ⟨h1, h2, h3⟩ := h
    obtain ⟨ih1, ih2⟩ := ih h2
    refine ⟨?_, ?_⟩
    · intro u hu
      rcases List.mem_cons.mp hu with rfl | hu'
      · exact h1
      · exact ih1 u hu'
    · rw [List.pairwise_cons]
      refine ⟨?_, ih2⟩
      intro u hu x hx hxu
      have : x ∈ pointsL ts := mem_pointsL_iff.mpr ⟨u, hu, hxu⟩
      exact h3 hx this

/-- Claim C3: after any prefix of processed edges, the trees held by the
builder (the fold of the loop body over that prefix, starting from the empty
forest) have pairwise-disjoint point sets, no tree contains a point twice,
and the sum of all tree sizes equals the number of distinct points that have
appeared as an endpoint of a processed edge. -/
theorem c3_partition_invariant (boxes : List JunctionBox)
    (σ : List ((JunctionBox × JunctionBox) × Nat)) (pre post : List EdgeT)
    (hσ : List.Perm σ (mapContents boxes)) (hsplit : sortedEdges σ = pre ++ post) :
    (∀ t ∈ foldEdges pre, t.points.Nodup) ∧
    List.Pairwise (fun t1 t2 => ∀ x, x ∈ t1.points → x ∉ t2.points) (foldEdges pre) ∧
    sizeL (foldEdges pre) = ((pre.flatMap fun e => [e.2.1, e.2.2]).dedup).length := by
  have hvalid : ∀ e ∈ pre, e.2.1 ≠ e.2.2 := by
    intro e he
    have hmem : e ∈ sortedEdges σ := by
      rw [hsplit]
      exact List.mem_append.mpr (Or.inl he)
    exact (sortedEdges_endpoints boxes σ hσ hmem).2.2
  obtain ⟨hnd, hmem⟩ := foldEdges_inv pre hvalid
  obtain ⟨hparts, hpair⟩ := nodup_pointsL_parts hnd
  refine ⟨hparts, hpair, ?_⟩
  have hperm : List.Perm (pointsL (foldEdges pre))
      ((pre.flatMap fun e => [e.2.1, e.2.2]).dedup) := by
    apply List.Subperm.antisymm
    · apply hnd.subperm
      intro x hx
      rw [List.mem_dedup]
      exact (hmem x).mp hx
    · apply (List.nodup_dedup _).subperm
      intro x hx
      rw [List.mem_dedup] at hx
      exact (hmem x).mpr hx
  rw [sizeL_eq_pointsL_length, hperm.length_eq]

/-- Closed instance of the C3 invariant: the full edge list of `fourBoxes`
processed as one prefix. -/
theorem c3_partition_invariant_witness :
    (∀ t ∈ foldEdges (sortedEdges (mapContents fourBoxes)), t.points.Nodup) ∧
    List.Pairwise (fun t1 t2 => ∀ x, x ∈ t1.points → x ∉ t2.points)
      (foldEdges (sortedEdges (mapContents fourBoxes))) ∧
    sizeL (foldEdges (sortedEdges (mapContents fourBoxes))) =
      (((sortedEdges (mapContents fourBoxes)).flatMap fun e => [e.2.1, e.2.2]).dedup).length :=
  c3_partition_invariant fourBoxes (mapContents fourBoxes)
    (sortedEdges (mapContents fourBoxes)) [] (List.Perm.refl _) (by simp)

/-! ### Uniqueness and spanning lemmas -/

theorem coTree_unique : ∀ {ts : List JBTree}, (pointsL ts).Nodup →
    ∀ {t1 t2 : JBTree}, t1 ∈ ts → t2 ∈ ts → ∀ {x : JunctionBox},
    x ∈ t1.points → x ∈ t2.points → t1 = t2 := by
  intro ts
  induction ts with
  | nil => intro _ t1 t2 h1; simp at h1
  | cons u ts ih =>
    intro hnd t1 t2 h1 h2 x hx1 hx2
    rw [pointsL, List.nodup_append] at hnd
    obtain ⟨hu, hts, hdisj⟩ := hnd
    rcases List.mem_cons.mp h1 with rfl | h1' <;> rcases List.mem_cons.mp h2 with rfl | h2'
    · rfl
    · exact absurd (mem_pointsL_iff.mpr ⟨t2, h2', hx2⟩) (fun hc => hdisj hx1 hc)
    · exact absurd (mem_pointsL_iff.mpr ⟨t1, h1', hx1⟩) (fun hc => hdisj hx2 hc)
    · exact ih hts h1' h2' hx1 hx2

/-- A tree whose size reaches the number of distinct points spans them all
and is the only tree of the forest. -/
theorem big_tree_spans {boxes : List JunctionBox} {ts : List JBTree}
    (hndp : (pointsL ts).Nodup) (hsub : ∀ x ∈ pointsL ts, x ∈ boxes)
    {t : JBTree} (ht : t ∈ ts) (hsize : boxes.length ≤ t.size) :
    ts = [t] ∧ t.size = boxes.length ∧ ∀ b ∈ boxes, t.contains b = true := by
  have htnd : t.points.Nodup := (nodup_pointsL_parts hndp).1 t ht
  have htsub : ∀ x ∈ t.points, x ∈ boxes := fun x hx =>
    hsub x (mem_pointsL_iff.mpr ⟨t, ht, hx⟩)
  have hsp : List.Subperm t.points boxes := htnd.subperm htsub
  have hlen : t.points.length ≤ boxes.length := hsp.length_le
  rw [JBTree.size_eq_points_length] at hsize
  have hperm : List.Perm t.points boxes := hsp.perm_of_length_le hsize
  have hcontains : ∀ b ∈ boxes, t.contains b = true := by
    intro b hb
    rw [JBTree.contains_iff]
    exact hperm.mem_iff.mpr hb
  have hall : ∀ u ∈ ts, u = t := by
    intro u hu
    obtain ⟨r, hr⟩ := JBTree.root_mem u
    have hrb : r ∈ boxes := hsub r (mem_pointsL_iff.mpr ⟨u, hu, hr⟩)
    have hrt : r ∈ t.points := hperm.mem_iff.mpr hrb
    exact coTree_unique hndp hu ht hr hrt
  have hsingle : ts = [t] := by
    cases ts with
    | nil => simp at ht
    | cons u rest =>
      have hut : u = t := hall u (List.mem_cons_self u rest)
      subst hut
      cases rest with
      | nil => rfl
      | cons v rest2 =>
        have hvt : v = u := hall v (by simp)
        subst hvt
        rw [pointsL, List.nodup_append] at hndp
        obtain ⟨_, _, hdisj⟩ := hndp
        obtain ⟨r, hr⟩ := JBTree.root_mem v
        have : r ∈ pointsL (v :: rest2) := by
          rw [pointsL]
          exact List.mem_append.mpr (Or.inl hr)
        exact absurd (hdisj hr this) (fun h => h)
  refine ⟨hsingle, ?_, hcontains⟩
  rw [JBTree.size_eq_points_length]
  exact Nat.le_antisymm hlen hsize

theorem coTree_swap {ts : List JBTree} {a b : JunctionBox} (h : coTree ts a b) :
    coTree ts b a := by
  obtain ⟨t, ht, h1, h2⟩ := h
  exact ⟨t, ht, h2, h1⟩

theorem dedupKeysGo_covers {k : JunctionBox × JunctionBox} {v : Nat} :
    ∀ {l : List ((JunctionBox × JunctionBox) × Nat)} {seen : List (JunctionBox × JunctionBox)},
    (k, v) ∈ l → k ∉ seen → ∃ w, (k, w) ∈ dedupKeysGo seen l := by
  intro l
  induction l with
  | nil => intro seen h; simp at h
  | cons kv rest ih =>
    intro seen h hks
    obtain ⟨k0, v0⟩ := kv
    by_cases hk0 : k0 ∈ seen
    · simp only [dedupKeysGo, if_pos hk0]
      rcases List.mem_cons.mp h with heq | h'
      · have hk : k = k0 := congrArg Prod.fst heq
        exact absurd (by rw [hk]; exact hk0) hks
      · exact ih h' hks
    · simp only [dedupKeysGo, if_neg hk0]
      rcases List.mem_cons.mp h with heq | h'
      · have hk : k = k0 := congrArg Prod.fst heq
        subst hk
        exact ⟨v0, List.mem_cons_self _ _⟩
      · by_cases hkk : k = k0
        · subst hkk
          exact ⟨v0, List.mem_cons_self _ _⟩
        · have : k ∉ k0 :: seen := by
            intro hc
            rcases List.mem_cons.mp hc with h1 | h1
            · exact hkk h1
            · exact hks h1
          obtain ⟨w, hw⟩ := ih h' this
          exact ⟨w, List.mem_cons_of_mem _ hw⟩

/-- Every unordered pair of distinct input points appears (canonically
ordered) somewhere in the sorted edge sequence. -/
theorem sortedEdges_covers (boxes : List JunctionBox)
    (σ : List ((JunctionBox × JunctionBox) × Nat))
    (hσ : List.Perm σ (mapContents boxes)) {a b : JunctionBox}
    (ha : a ∈ boxes) (hb : b ∈ boxes) (hne : a ≠ b) :
    ∃ d, (d, a, b) ∈ sortedEdges σ ∨ (d, b, a) ∈ sortedEdges σ := by
  have hraw : (canonPair a b, idistance a b) ∈ pairsRaw boxes := by
    unfold pairsRaw
    rw [List.mem_flatMap]
    refine ⟨a, ha, ?_⟩
    rw [List.mem_filterMap]
    exact ⟨b, hb, by simp [hne]⟩
  obtain ⟨w, hw⟩ := dedupKeysGo_covers hraw (List.not_mem_nil _)
  have hwσ : (canonPair a b, w) ∈ σ := hσ.mem_iff.mpr hw
  have hmem : (w, (canonPair a b).1, (canonPair a b).2) ∈ sortedEdges σ := by
    rw [mem_sortedEdges_iff, List.mem_map]
    exact ⟨(canonPair a b, w), hwσ, rfl⟩
  rcases canonPair_cases a b with hc | hc <;> rw [hc] at hmem
  · exact ⟨w, Or.inl hmem⟩
  · exact ⟨w, Or.inr hmem⟩

/-! ### The exhaustive run spans all points -/

/-- Main induction for the exhaustive stopping policy: from any loop state
whose forest is a clean partial partition of the distinct input points, such
that every pair of distinct points is either still on the edge agenda or
already connected, the loop ends with a single spanning tree and records the
edge that completed it. -/
theorem buildLoop_exhaustive (boxes : List JunctionBox) (hnd : boxes.Nodup)
    (hn2 : 2 ≤ boxes.length) :
    ∀ (edges : List EdgeT) (trees : List JBTree) (count : Nat),
    (∀ e ∈ edges, e.2.1 ∈ boxes ∧ e.2.2 ∈ boxes ∧ e.2.1 ≠ e.2.2) →
    (∀ x ∈ pointsL trees, x ∈ boxes) →
    (pointsL trees).Nodup →
    (∀ a b, a ∈ boxes → b ∈ boxes → a ≠ b →
      (∃ d, (d, a, b) ∈ edges ∨ (d, b, a) ∈ edges) ∨ coTree trees a b) →
    headSize trees < boxes.length →
    ∃ t p q, buildLoop boxes.length none edges trees count none = ([t], some (p, q)) ∧
      t.size = boxes.length ∧ (∀ b ∈ boxes, t.contains b = true) ∧
      ∃ d, (d, p, q) ∈ edges := by
  intro edges
  induction edges with
  | nil =>
    intro trees count _ hsub hndp hcover hfull
    exfalso
    -- with no edges left, every pair is already connected, so the first tree
    -- is already full, contradicting hfull
    obtain ⟨b0, b1, rest, hb01, hboxes⟩ :
        ∃ b0 b1 rest, b0 ≠ b1 ∧ boxes = b0 :: b1 :: rest := by
      cases boxes with
      | nil => simp at hn2
      | cons b0 tl =>
        cases tl with
        | nil => simp at hn2
        | cons b1 rest =>
          refine ⟨b0, b1, rest, ?_, rfl⟩
          intro h
          subst h
          simp at hnd
    have hco : ∀ a b, a ∈ boxes → b ∈ boxes → a ≠ b → coTree trees a b := by
      intro a b ha hb hab
      rcases hcover a b ha hb hab with ⟨d, hd | hd⟩ | hco
      · simp at hd
      · simp at hd
      · exact hco
    have hb0 : b0 ∈ boxes := by rw [hboxes]; simp
    have hb1 : b1 ∈ boxes := by rw [hboxes]; simp
    obtain ⟨t0, ht0, hc0, hc1⟩ := hco b0 b1 hb0 hb1 hb01
    have hall : ∀ c ∈ boxes, t0.contains c = true := by
      intro c hc
      by_cases hcb : c = b0
      · subst hcb; exact hc0
      · obtain ⟨t', ht', hc', hc0'⟩ := hco c b0 hc hb0 hcb
        have : t' = t0 := coTree_unique hndp ht' ht0
          ((JBTree.contains_iff t' b0).mp hc0') ((JBTree.contains_iff t0 b0).mp hc0)
        subst this
        exact hc'
    have hsize : boxes.length ≤ t0.size := by
      have htsub : ∀ x ∈ boxes, x ∈ t0.points := by
        intro x hx
        exact (JBTree.contains_iff t0 x).mp (hall x hx)
      have : List.Subperm boxes t0.points := hnd.subperm htsub
      rw [JBTree.size_eq_points_length]
      exact this.length_le
    obtain ⟨hsingle, hsz, _⟩ := big_tree_spans hndp hsub ht0 hsize
    rw [hsingle] at hfull
    have h0 : headSize [t0] = t0.size := rfl
    rw [h0, hsz] at hfull
    exact Nat.lt_irrefl _ hfull
  | cons e rest ih =>
    intro trees count hedges hsub hndp hcover hfull
    obtain ⟨d, p, q⟩ := e
    have hp : p ∈ boxes := (hedges (d, p, q) (List.mem_cons_self _ _)).1
    have hq : q ∈ boxes := (hedges (d, p, q) (List.mem_cons_self _ _)).2.1
    have hpq : p ≠ q := (hedges (d, p, q) (List.mem_cons_self _ _)).2.2
    have hrest : ∀ e' ∈ rest, e'.2.1 ∈ boxes ∧ e'.2.2 ∈ boxes ∧ e'.2.1 ≠ e'.2.2 :=
      fun e' he' => hedges e' (List.mem_cons_of_mem _ he')
    rcases hst : sameTreeIdx trees p q with _ | _
    · -- a real connection is made
      have hndp' : (pointsL (stepEdge trees p q)).Nodup := stepEdge_nodup hpq hndp
      have hsub' : ∀ x ∈ pointsL (stepEdge trees p q), x ∈ boxes := by
        intro x hx
        rcases stepEdge_mem_iff.mp hx with hx' | rfl | rfl
        · exact hsub x hx'
        · exact hp
        · exact hq
      by_cases hdone : boxes.length ≤ headSize (stepEdge trees p q)
      · -- the edge completes the spanning tree: the loop stops and records it
        obtain ⟨t0, ts', hts'⟩ : ∃ t0 ts', stepEdge trees p q = t0 :: ts' := by
          cases hsp : stepEdge trees p q with
          | nil =>
            rw [hsp] at hdone
            have : headSize ([] : List JBTree) = 0 := rfl
            rw [this] at hdone
            omega
          | cons t0 ts' => exact ⟨t0, ts', rfl⟩
        have ht0mem : t0 ∈ stepEdge trees p q := by rw [hts']; simp
        have hsize0 : boxes.length ≤ t0.size := by
          rw [hts'] at hdone
          simpa [headSize] using hdone
        obtain ⟨hsingle, hsz, hallc⟩ := big_tree_spans hndp' hsub' ht0mem hsize0
        refine ⟨t0, p, q, ?_, hsz, hallc, ⟨d, List.mem_cons_self _ _⟩⟩
        simp only [buildLoop, hst, Bool.false_eq_true, if_false, stopMax]
        rw [if_pos hdone, hsingle]
      · -- not yet complete: recurse
        have hcover' : ∀ a b, a ∈ boxes → b ∈ boxes → a ≠ b →
            (∃ d', (d', a, b) ∈ rest ∨ (d', b, a) ∈ rest) ∨
              coTree (stepEdge trees p q) a b := by
          intro a b ha hb hab
          rcases hcover a b ha hb hab with ⟨d', hd | hd⟩ | hco
          · rcases List.mem_cons.mp hd with heq | hd'
            · have ha2 : a = p := congrArg (fun e : EdgeT => e.2.1) heq
              have hb2 : b = q := congrArg (fun e : EdgeT => e.2.2) heq
              subst ha2
              subst hb2
              exact Or.inr (stepEdge_coTree_self trees a b)
            · exact Or.inl ⟨d', Or.inl hd'⟩
          · rcases List.mem_cons.mp hd with heq | hd'
            · have hb2 : b = p := congrArg (fun e : EdgeT => e.2.1) heq
              have ha2 : a = q := congrArg (fun e : EdgeT => e.2.2) heq
              subst ha2
              subst hb2
              exact Or.inr (coTree_swap (stepEdge_coTree_self trees b a))
            · exact Or.inl ⟨d', Or.inr hd'⟩
          · exact Or.inr (stepEdge_coTree_mono hco)
        have hfull' : headSize (stepEdge trees p q) < boxes.length :=
          Nat.lt_of_not_le hdone
        obtain ⟨t, p', q', hres, hsz, hallc, ⟨d', hd'⟩⟩ :=
          ih (stepEdge trees p q) (count + 1) hrest hsub' hndp' hcover' hfull'
        refine ⟨t, p', q', ?_, hsz, hallc, ⟨d', List.mem_cons_of_mem _ hd'⟩⟩
        simp only [buildLoop, hst, Bool.false_eq_true, if_false, stopMax]
        rw [if_neg hdone]
        exact hres
    · -- no-op merge: the loop continues with the same forest
      have hcover' : ∀ a b, a ∈ boxes → b ∈ boxes → a ≠ b →
          (∃ d', (d', a, b) ∈ rest ∨ (d', b, a) ∈ rest) ∨ coTree trees a b := by
        intro a b ha hb hab
        rcases hcover a b ha hb hab with ⟨d', hd | hd⟩ | hco
        · rcases List.mem_cons.mp hd with heq | hd'
          · have ha2 : a = p := congrArg (fun e : EdgeT => e.2.1) heq
            have hb2 : b = q := congrArg (fun e : EdgeT => e.2.2) heq
            subst ha2
            subst hb2
            exact Or.inr (sameTreeIdx_coTree hst)
          · exact Or.inl ⟨d', Or.inl hd'⟩
        · rcases List.mem_cons.mp hd with heq | hd'
          · have hb2 : b = p := congrArg (fun e : EdgeT => e.2.1) heq
            have ha2 : a = q := congrArg (fun e : EdgeT => e.2.2) heq
            subst ha2
            subst hb2
            exact Or.inr (coTree_swap (sameTreeIdx_coTree hst))
          · exact Or.inl ⟨d', Or.inr hd'⟩
        · exact Or.inr hco
      obtain ⟨t, p', q', hres, hsz, hallc, ⟨d', hd'⟩⟩ :=
        ih trees (count + 1) hrest hsub hndp hcover' hfull
      refine ⟨t, p', q', ?_, hsz, hallc, ⟨d', List.mem_cons_of_mem _ hd'⟩⟩
      simp only [buildLoop, hst, if_true]
      exact hres

/-- Claim C1: for every point set of at least two pairwise-distinct points,
the exhaustive run (`connection_pairs_max = None`) — for any iteration order
of the pair→distance map — ends with exactly one tree whose size is the
number of points and which contains every input point, and records and
returns (as the second component) the edge whose processing produced that
single spanning tree. -/
theorem c1_exhaustive_spanning (boxes : List JunctionBox)
    (σ : List ((JunctionBox × JunctionBox) × Nat)) (hnd : boxes.Nodup)
    (hn2 : 2 ≤ boxes.length) (hσ : List.Perm σ (mapContents boxes)) :
    ∃ t p q, distance_matrix boxes σ none = ([t], some (p, q)) ∧
      t.size = boxes.length ∧ (∀ b ∈ boxes, t.contains b = true) ∧
      ∃ d, (d, p, q) ∈ sortedEdges σ := by
  obtain ⟨t, p, q, hres, hsz, hall, hd⟩ :=
    buildLoop_exhaustive boxes hnd hn2 (sortedEdges σ) [] 0
      (fun e he => sortedEdges_endpoints boxes σ hσ he)
      (by intro x hx; simp [pointsL] at hx)
      (by simp [pointsL])
      (fun a b ha hb hab => Or.inl (sortedEdges_covers boxes σ hσ ha hb hab))
      (by
        have h0 : headSize ([] : List JBTree) = 0 := rfl
        rw [h0]
        omega)
  refine ⟨t, p, q, ?_, hsz, hall, hd⟩
  have hdm : distance_matrix boxes σ none = (sortBySizeDesc [t], some (p, q)) := by
    unfold distance_matrix
    rw [hres]
  have hs : sortBySizeDesc [t] = [t] := rfl
  rw [hdm, hs]

/-- Two distinct points used to instantiate the exhaustive-mode theorem. -/
def pairBoxes : List JunctionBox := [⟨0, 0, 0⟩, ⟨1, 0, 0⟩]

/-- Closed instance of the exhaustive spanning theorem on two points. -/
theorem c1_exhaustive_spanning_witness :
    ∃ t p q, distance_matrix pairBoxes (mapContents pairBoxes) none = ([t], some (p, q)) ∧
      t.size = pairBoxes.length ∧ (∀ b ∈ pairBoxes, t.contains b = true) ∧
      ∃ d, (d, p, q) ∈ sortedEdges (mapContents pairBoxes) :=
  c1_exhaustive_spanning pairBoxes (mapContents pairBoxes) (by decide) (by decide)
    (List.Perm.refl _)

/-- Claim C6: for every iteration order of the pair→distance map, the sorted
edge sequence is non-decreasing in distance: each edge's distance is at most
every later edge's distance. -/
theorem c6_sorted_nondecreasing (σ : List ((JunctionBox × JunctionBox) × Nat)) :
    List.Pairwise (fun a b : EdgeT => a.1 ≤ b.1) (sortedEdges σ) := by
  have h := List.sorted_insertionSort edgeLE (σ.map fun kv => (kv.2, kv.1.1, kv.1.2))
  exact h.imp (fun hab => hab)

/-! ### The integer square root agrees with the mathematical floor -/

theorem isqrtGo_eq (n : Nat) : ∀ m, Nat.sqrt n ≤ m → isqrtGo n m = Nat.sqrt n := by
  intro m
  induction m with
  | zero =>
    intro h
    have : isqrtGo n 0 = 0 := rfl
    omega
  | succ k ihk =>
    intro h
    by_cases hc : (k + 1) * (k + 1) ≤ n
    · have hup : k + 1 ≤ Nat.sqrt n := Nat.le_sqrt.mpr hc
      simp only [isqrtGo, if_pos hc]
      omega
    · have hlt : Nat.sqrt n ≤ k := by
        by_contra hx
        exact hc (Nat.le_sqrt.mp (by omega))
      simp only [isqrtGo, if_neg hc]
      exact ihk hlt

theorem isqrt_eq_sqrt (n : Nat) : isqrt n = Nat.sqrt n :=
  isqrtGo_eq n n (Nat.sqrt_le_self n)

theorem absDiff_cast_sq (u v : Nat) : ((absDiff u v : Nat) : ℝ) ^ 2 = ((u : ℝ) - v) ^ 2 := by
  unfold absDiff
  by_cases h : u < v
  · rw [if_pos h]
    have hle : u ≤ v := Nat.le_of_lt h
    push_cast [hle]
    ring
  · rw [if_neg h]
    have hle : v ≤ u := Nat.le_of_not_lt h
    push_cast [hle]
    ring

/-- The origin, paired with `farBox` below to overflow the squaring. -/
def originBox : JunctionBox := ⟨0, 0, 0⟩

/-- A point `2^32` away from the origin on the x axis: its squared distance
is exactly `2^64`, which `usize::pow(2)` wraps to `0`. -/
def farBox : JunctionBox := ⟨4294967296, 0, 0⟩

/-- Claim C7 (counterexample): for the points `(0,0,0)` and `(2^32,0,0)` the
squared axis difference is `2^64`, which the `usize` squaring wraps to `0`
in a release build (a debug build panics), so `idistance` returns `0` while
the floor of the real square root of the exact sum is `2^32` — the claimed
equality fails for coordinates this far apart. -/
theorem c7_wrap_around_cex :
    idistance originBox farBox ≠
      ⌊Real.sqrt (((originBox.x : ℝ) - farBox.x) ^ 2 + ((originBox.y : ℝ) - farBox.y) ^ 2 +
        ((originBox.z : ℝ) - farBox.z) ^ 2)⌋₊ ∧
    idistance originBox farBox = 0 := by
  have hid : idistance originBox farBox = 0 := by decide
  have hsum : ((originBox.x : ℝ) - farBox.x) ^ 2 + ((originBox.y : ℝ) - farBox.y) ^ 2 +
      ((originBox.z : ℝ) - farBox.z) ^ 2 = (4294967296 : ℝ) ^ 2 := by
    norm_num [originBox, farBox]
  have hfloor : ⌊Real.sqrt (((originBox.x : ℝ) - farBox.x) ^ 2 +
      ((originBox.y : ℝ) - farBox.y) ^ 2 + ((originBox.z : ℝ) - farBox.z) ^ 2)⌋₊ =
      4294967296 := by
    rw [hsum, Real.sqrt_sq (by norm_num)]
    norm_num
  refine ⟨?_, hid⟩
  rw [hid, hfloor]
  decide

/-- Claim C7 (amended): whenever the exact sum of the three squared
coordinate differences stays below `2^64` — so no `usize` operation wraps,
which holds for the parsed puzzle inputs — the integer distance equals the
floor of the real square root of that exact sum: integer arithmetic with no
floating-point rounding, so equal exact distances compare equal. -/
theorem c7_idistance_floor_sqrt (a b : JunctionBox)
    (h : absDiff a.x b.x ^ 2 + absDiff a.y b.y ^ 2 + absDiff a.z b.z ^ 2 < U64) :
    idistance a b =
      ⌊Real.sqrt (((a.x : ℝ) - b.x) ^ 2 + ((a.y : ℝ) - b.y) ^ 2 + ((a.z : ℝ) - b.z) ^ 2)⌋₊ := by
  have hsum : ((absDiff a.x b.x ^ 2 + absDiff a.y b.y ^ 2 + absDiff a.z b.z ^ 2 : Nat) : ℝ)
      = ((a.x : ℝ) - b.x) ^ 2 + ((a.y : ℝ) - b.y) ^ 2 + ((a.z : ℝ) - b.z) ^ 2 := by
    rw [← absDiff_cast_sq a.x b.x, ← absDiff_cast_sq a.y b.y, ← absDiff_cast_sq a.z b.z]
    push_cast
    ring
  have h1 : sqWrap (absDiff a.x b.x) = absDiff a.x b.x ^ 2 :=
    Nat.mod_eq_of_lt (by omega)
  have h2 : sqWrap (absDiff a.y b.y) = absDiff a.y b.y ^ 2 :=
    Nat.mod_eq_of_lt (by omega)
  have h3 : sqWrap (absDiff a.z b.z) = absDiff a.z b.z ^ 2 :=
    Nat.mod_eq_of_lt (by omega)
  have h12 : (absDiff a.x b.x ^ 2 + absDiff a.y b.y ^ 2) % U64 =
      absDiff a.x b.x ^ 2 + absDiff a.y b.y ^ 2 :=
    Nat.mod_eq_of_lt (by omega)
  rw [idistance, h1, h2, h3, h12, Nat.mod_eq_of_lt h, isqrt_eq_sqrt,
    ← Real.nat_floor_real_sqrt_eq_nat_sqrt, hsum]

/-- Closed instance of the no-overflow distance theorem: a 3-4-5 triangle in
the xy plane. -/
theorem c7_idistance_floor_sqrt_witness :
    absDiff (⟨0, 0, 0⟩ : JunctionBox).x (⟨3, 4, 0⟩ : JunctionBox).x ^ 2 +
      absDiff (⟨0, 0, 0⟩ : JunctionBox).y (⟨3, 4, 0⟩ : JunctionBox).y ^ 2 +
      absDiff (⟨0, 0, 0⟩ : JunctionBox).z (⟨3, 4, 0⟩ : JunctionBox).z ^ 2 < U64 ∧
    idistance ⟨0, 0, 0⟩ ⟨3, 4, 0⟩ =
      ⌊Real.sqrt ((((⟨0, 0, 0⟩ : JunctionBox).x : ℝ) - (⟨3, 4, 0⟩ : JunctionBox).x) ^ 2 +
        (((⟨0, 0, 0⟩ : JunctionBox).y : ℝ) - (⟨3, 4, 0⟩ : JunctionBox).y) ^ 2 +
        (((⟨0, 0, 0⟩ : JunctionBox).z : ℝ) - (⟨3, 4, 0⟩ : JunctionBox).z) ^ 2)⌋₊ :=
  ⟨by decide, c7_idistance_floor_sqrt ⟨0, 0, 0⟩ ⟨3, 4, 0⟩ (by decide)⟩

/-! ### Tie order between equal distances is iteration-order dependent -/

/-- Three collinear points with two pairs at distance 1: a distance tie. -/
def tieBoxes : List JunctionBox := [⟨0, 0, 0⟩, ⟨1, 0, 0⟩, ⟨2, 0, 0⟩]

/-- Another iteration order of the same map contents, with the two
distance-1 entries swapped. -/
def tieOrderB : List ((JunctionBox × JunctionBox) × Nat) :=
  [((⟨1, 0, 0⟩, ⟨2, 0, 0⟩), 1), ((⟨0, 0, 0⟩, ⟨1, 0, 0⟩), 1), ((⟨0, 0, 0⟩, ⟨2, 0, 0⟩), 2)]

/-- Claim C5 (counterexample): two runs over the same input whose
pair→distance map happens to be iterated in different orders (both orders
are permutations of the same map contents, as `HashMap` iteration is) yield
different sorted edge sequences — the stable sort preserves the iteration
order of the two equal-distance pairs.  The ordered sequence is therefore
not a function of the input list alone. -/
theorem c5_tie_order_dependent_cex :
    List.Perm tieOrderB (mapContents tieBoxes) ∧
    sortedEdges tieOrderB ≠ sortedEdges (mapContents tieBoxes) := by
  constructor
  · decide
  · decide

/-- Claim C5 (amended): for a fixed map iteration order the output is a
function of the input (re-running is idempotent), and across any two
iteration orders of the same contents the two sorted sequences are
permutations of each other with identical distance sequences; only the
relative order of equal-distance pairs can differ. -/
theorem c5_determinism_amended (boxes : List JunctionBox)
    (σ1 σ2 : List ((JunctionBox × JunctionBox) × Nat))
    (h1 : List.Perm σ1 (mapContents boxes)) (h2 : List.Perm σ2 (mapContents boxes)) :
    List.Perm (sortedEdges σ1) (sortedEdges σ2) ∧
    (sortedEdges σ1).map Prod.fst = (sortedEdges σ2).map Prod.fst ∧
    (σ1 = σ2 → sortedEdges σ1 = sortedEdges σ2) := by
  have hperm : List.Perm (sortedEdges σ1) (sortedEdges σ2) := by
    have p1 := List.perm_insertionSort edgeLE (σ1.map fun kv => (kv.2, kv.1.1, kv.1.2))
    have p2 := List.perm_insertionSort edgeLE (σ2.map fun kv => (kv.2, kv.1.1, kv.1.2))
    have h12 : List.Perm σ1 σ2 := h1.trans h2.symm
    exact (p1.trans (h12.map _)).trans p2.symm
  refine ⟨hperm, ?_, fun h => by rw [h]⟩
  have s0 : ∀ σ0 : List ((JunctionBox × JunctionBox) × Nat),
      List.Pairwise (fun a b : Nat => a ≤ b) ((sortedEdges σ0).map Prod.fst) := by
    intro σ0
    have h := List.sorted_insertionSort edgeLE (σ0.map fun kv => (kv.2, kv.1.1, kv.1.2))
    exact List.Pairwise.map Prod.fst (fun a b hab => hab) h
  exact List.eq_of_perm_of_sorted (hperm.map Prod.fst) (s0 σ1) (s0 σ2)

/-- Closed instance of the amended determinism statement, at the tie input
and two concrete iteration orders. -/
theorem c5_determinism_amended_witness :
    List.Perm (sortedEdges (mapContents tieBoxes)) (sortedEdges tieOrderB) ∧
    (sortedEdges (mapContents tieBoxes)).map Prod.fst = (sortedEdges tieOrderB).map Prod.fst ∧
    (mapContents tieBoxes = tieOrderB →
      sortedEdges (mapContents tieBoxes) = sortedEdges tieOrderB) :=
  c5_determinism_amended tieBoxes (mapContents tieBoxes) tieOrderB
    (List.Perm.refl _) (by decide)

/-! ### Duplicates produce no self edge -/

/-- Claim C4 (amended): duplicates of a point never produce an edge between
themselves — the value-equality filter removes every pair whose two points
are equal, so each entry of the pair→distance mapping joins two distinct
points and no point is ever paired with itself.  Duplicate-coordinate
points are not an error; they are silently collapsed. -/
theorem c4_no_self_edges_amended (boxes : List JunctionBox)
    (e : (JunctionBox × JunctionBox) × Nat) (he : e ∈ mapContents boxes) :
    e.1.1 ≠ e.1.2 := by
  have hraw := dedupKeysGo_subset he
  obtain ⟨a, b, ha, hb, hne, rfl⟩ := pairsRaw_mem_spec hraw
  rcases canonPair_cases a b with hc | hc <;> rw [hc]
  · exact hne
  · exact fun hh => hne hh.symm

/-- Closed instance: the first edge of the tie input joins distinct points. -/
theorem c4_no_self_edges_amended_witness :
    ((((⟨0, 0, 0⟩ : JunctionBox), (⟨1, 0, 0⟩ : JunctionBox)), 1) :
        (JunctionBox × JunctionBox) × Nat).1.1 ≠
      ((((⟨0, 0, 0⟩ : JunctionBox), (⟨1, 0, 0⟩ : JunctionBox)), 1) :
        (JunctionBox × JunctionBox) × Nat).1.2 :=
  c4_no_self_edges_amended tieBoxes (((⟨0, 0, 0⟩), (⟨1, 0, 0⟩)), 1) (by decide)

/-! ### Stopping behaviour of the loop -/

/-- Claim C2 (amended): after every accepted edge except a same-tree no-op
merge, the stopping checks run — if the bounded maximum has been reached by
the incremented count, the loop returns at once without touching the
remaining edges; a same-tree no-op merge, however, increments the count and
skips both checks, so the loop continues even if the count has reached the
maximum. -/
theorem c2_stop_after_accepted_amended :
    (∀ (n m d count : Nat) (p q : JunctionBox) (rest : List EdgeT) (trees : List JBTree)
        (last : Option (JunctionBox × JunctionBox)),
      sameTreeIdx trees p q = false → m ≤ count + 1 →
      buildLoop n (some m) ((d, p, q) :: rest) trees count last =
        (stepEdge trees p q, last)) ∧
    (∀ (n : Nat) (maxPairs : Option Nat) (d count : Nat) (p q : JunctionBox)
        (rest : List EdgeT) (trees : List JBTree) (last : Option (JunctionBox × JunctionBox)),
      sameTreeIdx trees p q = true →
      buildLoop n maxPairs ((d, p, q) :: rest) trees count last =
        buildLoop n maxPairs rest trees (count + 1) last) := by
  constructor
  · intro n m d count p q rest trees last hst hm
    simp only [buildLoop, hst, Bool.false_eq_true, if_false]
    rw [if_pos (by simp [stopMax, hm])]
  · intro n maxPairs d count p q rest trees last hst
    simp only [buildLoop, hst, if_true]

/-- Closed instance of the two stopping behaviours: a non-no-op edge that
exhausts the bound halts the loop at once, and a same-tree edge skips the
checks. -/
theorem c2_stop_after_accepted_amended_witness :
    buildLoop 2 (some 1) [(1, ⟨0, 0, 0⟩, ⟨1, 0, 0⟩)] [] 0 none =
      (stepEdge [] ⟨0, 0, 0⟩ ⟨1, 0, 0⟩, none) ∧
    buildLoop 2 (some 5) [(0, ⟨0, 0, 0⟩, ⟨0, 0, 0⟩)] [JBTree.node ⟨0, 0, 0⟩ []] 0 none =
      buildLoop 2 (some 5) [] [JBTree.node ⟨0, 0, 0⟩ []] 1 none :=
  ⟨c2_stop_after_accepted_amended.1 2 1 1 0 ⟨0, 0, 0⟩ ⟨1, 0, 0⟩ [] [] none
      (by decide) (by decide),
    c2_stop_after_accepted_amended.2 2 (some 5) 0 0 ⟨0, 0, 0⟩ ⟨0, 0, 0⟩ []
      [JBTree.node ⟨0, 0, 0⟩ []] none (by decide)⟩

/-- Claim C10: in bounded mode, when processing an edge makes the first
tree's size reach the total number of input points while the accepted count
is still strictly below the maximum, the loop halts at once — remaining
edges unprocessed — and records that completing edge, exactly as exhaustive
mode does. -/
theorem c10_bounded_full_halt (n m d count : Nat) (p q : JunctionBox) (rest : List EdgeT)
    (trees : List JBTree) (last : Option (JunctionBox × JunctionBox))
    (hst : sameTreeIdx trees p q = false) (hm : count + 1 < m)
    (hfull : n ≤ headSize (stepEdge trees p q)) :
    buildLoop n (some m) ((d, p, q) :: rest) trees count last =
      (stepEdge trees p q, some (p, q)) := by
  simp only [buildLoop, hst, Bool.false_eq_true, if_false]
  rw [if_neg (by simp [stopMax]; omega)]
  rw [if_pos hfull]

/-- Closed instance: two points, bound 5, the first edge completes the tree
and is recorded though the count is below the bound. -/
theorem c10_bounded_full_halt_witness :
    buildLoop 2 (some 5) [(1, ⟨0, 0, 0⟩, ⟨1, 0, 0⟩)] [] 0 none =
      (stepEdge [] ⟨0, 0, 0⟩ ⟨1, 0, 0⟩, some (⟨0, 0, 0⟩, ⟨1, 0, 0⟩)) :=
  c10_bounded_full_halt 2 5 1 0 ⟨0, 0, 0⟩ ⟨1, 0, 0⟩ [] [] none
    (by decide) (by decide) (by decide)
